import Mathlib

/-!
# Verification of the goproflow fragment pipeline

Shallow embedding of the core of the `goproflow` repository:

* `noshake.py` — motion signal builder, sliding-RMS intensity estimator
  (`cori_sliding_rms`), fragment segmenter (`find_fragments`) and the
  per-file fallback policy of `process_directory`;
* `index_by_resolution.py` — the resolution index builder (`gather_index`)
  and its JSON persistence;
* `create_playlist.py` — fragment extraction bookkeeping
  (`process_all_fragments`) and playlist emission (`create_m3u_playlist`).

Numeric values (Python floats) are modelled as exact rationals `ℚ`;
`numpy` float square roots are abstracted by an arbitrary elementwise
function parameter where only lengths and comparisons matter.
-/

namespace Goproflow

/-- A fragment `{start: t0, end: t1}` as produced by `find_fragments`
(`noshake.py` lines 204-208).  The JSON key `end` is a Lean keyword, hence
the field name `stop`. -/
structure Frag where
  start : ℚ
  stop : ℚ
  deriving Repr, DecidableEq

/-- The inner `while i < N and below[i]: i += 1` loop of `find_fragments`
(`noshake.py` lines 199-200): starting from `i`, the first index at which
the signal is not strictly below the threshold (or the length of the
signal, whichever comes first). -/
def firstAbove (signal : List ℚ) (threshold : ℚ) (i : ℕ) : ℕ :=
  if i < signal.length ∧ signal.getD i 0 < threshold then
    firstAbove signal threshold (i + 1)
  else
    i
termination_by signal.length - i
decreasing_by
  rename_i h
  exact Nat.sub_lt_sub_left h.1 (Nat.lt_succ_self i)

theorem firstAbove_ge (signal : List ℚ) (threshold : ℚ) (i : ℕ) :
    i ≤ firstAbove signal threshold i := by
  unfold firstAbove
  split
  · exact le_trans (Nat.le_succ i) (firstAbove_ge signal threshold (i + 1))
  · exact le_refl i
termination_by signal.length - i
decreasing_by
  rename_i h
  exact Nat.sub_lt_sub_left h.1 (Nat.lt_succ_self i)

theorem firstAbove_ge_succ {signal : List ℚ} {threshold : ℚ} {i : ℕ}
    (h : i < signal.length) (hb : signal.getD i 0 < threshold) :
    i + 1 ≤ firstAbove signal threshold i := by
  rw [firstAbove, if_pos ⟨h, hb⟩]
  exact firstAbove_ge signal threshold (i + 1)

/-- The outer `while i < N` loop of `find_fragments` (`noshake.py`
lines 196-210), entered at index `i`: collect each maximal below-threshold
run `[start_idx, end_idx]`, convert its endpoints to times and keep it when
`t1 - t0 >= min_duration_s`. -/
def goFrag (time signal : List ℚ) (threshold min_duration_s : ℚ) (i : ℕ) :
    List Frag :=
  if h : i < signal.length then
    if hb : signal.getD i 0 < threshold then
      let j := firstAbove signal threshold i
      let t0 := time.getD i 0
      let t1 := time.getD (j - 1) 0
      let rest := goFrag time signal threshold min_duration_s j
      if min_duration_s ≤ t1 - t0 then ⟨t0, t1⟩ :: rest else rest
    else
      goFrag time signal threshold min_duration_s (i + 1)
  else
    []
termination_by signal.length - i
decreasing_by
  · exact Nat.sub_lt_sub_left h (by
      exact firstAbove_ge_succ h hb)
  · exact Nat.sub_lt_sub_left h (Nat.lt_succ_self i)

/-- `find_fragments` (`noshake.py` lines 179-212): the guard
`if time is None or signal is None: return []` is modelled by `Option`
inputs; otherwise the index-based scan starts at `i = 0`. -/
def find_fragments (time signal : Option (List ℚ))
    (threshold min_duration_s : ℚ) : List Frag :=
  match time, signal with
  | some time, some signal => goFrag time signal threshold min_duration_s 0
  | _, _ => []

theorem firstAbove_le_length {signal : List ℚ} {threshold : ℚ} {i : ℕ}
    (h : i ≤ signal.length) : firstAbove signal threshold i ≤ signal.length := by
  unfold firstAbove
  split
  · rename_i hc
    exact firstAbove_le_length hc.1
  · exact h
termination_by signal.length - i
decreasing_by
  rename_i hc
  exact Nat.sub_lt_sub_left hc.1 (Nat.lt_succ_self i)

/-- Every index passed over by the inner while loop is strictly below the
threshold. -/
theorem firstAbove_below (signal : List ℚ) (threshold : ℚ) (i k : ℕ)
    (hik : i ≤ k) (hk : k < firstAbove signal threshold i) :
    signal.getD k 0 < threshold := by
  rw [firstAbove] at hk
  split at hk
  · rename_i hc
    rcases Nat.eq_or_lt_of_le hik with rfl | hlt
    · exact hc.2
    · exact firstAbove_below signal threshold (i + 1) k hlt hk
  · exact absurd (lt_of_le_of_lt hik hk) (lt_irrefl i)
termination_by signal.length - i
decreasing_by
  rename_i hc
  exact Nat.sub_lt_sub_left hc.1 (Nat.lt_succ_self i)

/-- The inner while loop exits either past the end of the signal or at an
index that is not below the threshold. -/
theorem firstAbove_exit (signal : List ℚ) (threshold : ℚ) {i : ℕ}
    (h : i ≤ signal.length) :
    firstAbove signal threshold i = signal.length ∨
      (firstAbove signal threshold i < signal.length ∧
        ¬ signal.getD (firstAbove signal threshold i) 0 < threshold) := by
  rw [firstAbove]
  split
  · rename_i hc
    exact firstAbove_exit signal threshold hc.1
  · rename_i hc
    rcases Nat.eq_or_lt_of_le h with heq | hlt
    · exact Or.inl heq
    · exact Or.inr ⟨hlt, fun hb => hc ⟨hlt, hb⟩⟩
termination_by signal.length - i
decreasing_by
  rename_i hc
  exact Nat.sub_lt_sub_left hc.1 (Nat.lt_succ_self i)

/-- Every fragment produced by the outer loop entered at index `i` is the
time span of a below-threshold run `[a, b]` that is maximal on both sides,
and its duration passed the `min_duration_s` test. -/
theorem goFrag_spec (time signal : List ℚ) (threshold min_duration_s : ℚ)
    (i : ℕ) (f : Frag)
    (hf : f ∈ goFrag time signal threshold min_duration_s i) :
    ∃ a b : ℕ, i ≤ a ∧ a ≤ b ∧ b < signal.length ∧
      f.start = time.getD a 0 ∧ f.stop = time.getD b 0 ∧
      (∀ k, a ≤ k → k ≤ b → signal.getD k 0 < threshold) ∧
      (a = i ∨ (0 < a ∧ ¬ signal.getD (a - 1) 0 < threshold)) ∧
      (b + 1 = signal.length ∨ ¬ signal.getD (b + 1) 0 < threshold) ∧
      min_duration_s ≤ f.stop - f.start := by
  rw [goFrag] at hf
  split at hf
  · rename_i h
    split at hf
    · rename_i hb
      have hj1 : i + 1 ≤ firstAbove signal threshold i :=
        firstAbove_ge_succ h hb
      have hj2 : firstAbove signal threshold i ≤ signal.length :=
        firstAbove_le_length (le_of_lt h)
      have hstep :
          ∀ g, g ∈ goFrag time signal threshold min_duration_s
              (firstAbove signal threshold i) →
            ∃ a b : ℕ, i ≤ a ∧ a ≤ b ∧ b < signal.length ∧
              g.start = time.getD a 0 ∧ g.stop = time.getD b 0 ∧
              (∀ k, a ≤ k → k ≤ b → signal.getD k 0 < threshold) ∧
              (a = i ∨ (0 < a ∧ ¬ signal.getD (a - 1) 0 < threshold)) ∧
              (b + 1 = signal.length ∨
                ¬ signal.getD (b + 1) 0 < threshold) ∧
              min_duration_s ≤ g.stop - g.start := by
        intro g hg
        obtain ⟨a, b, ha, hab, hb', hs, he, hrun, hleft, hright, hdur⟩ :=
          goFrag_spec time signal threshold min_duration_s
            (firstAbove signal threshold i) g hg
        refine ⟨a, b, le_trans (le_trans (Nat.le_succ i) hj1) ha,
          hab, hb', hs, he, hrun, ?_, hright, hdur⟩
        rcases hleft with heqa | hl
        · exfalso
          rcases firstAbove_exit signal threshold (le_of_lt h) with heq | ⟨_, hnb⟩
          · have : a < signal.length := lt_of_le_of_lt hab hb'
            omega
          · exact hnb (heqa ▸ hrun a (le_refl a) hab)
        · exact Or.inr hl
      dsimp only at hf
      split at hf
      · rename_i hdurc
        rcases List.mem_cons.mp hf with rfl | hf'
        · refine ⟨i, firstAbove signal threshold i - 1, le_refl i,
            by omega, by omega, rfl, rfl, ?_, Or.inl rfl, ?_, hdurc⟩
          · intro k hik hk
            exact firstAbove_below signal threshold i k hik (by omega)
          · have heq1 : firstAbove signal threshold i - 1 + 1 =
                firstAbove signal threshold i := by omega
            rw [heq1]
            rcases firstAbove_exit signal threshold (le_of_lt h) with heq | ⟨_, hnb⟩
            · exact Or.inl heq
            · exact Or.inr hnb
        · exact hstep f hf'
      · exact hstep f hf
    · rename_i hb
      obtain ⟨a, b, ha, hab, hb', hs, he, hrun, hleft, hright, hdur⟩ :=
        goFrag_spec time signal threshold min_duration_s (i + 1) f hf
      refine ⟨a, b, le_trans (Nat.le_succ i) ha, hab, hb', hs, he, hrun,
        ?_, hright, hdur⟩
      rcases hleft with rfl | hl
      · exact Or.inr ⟨Nat.succ_pos i, by simpa using hb⟩
      · exact Or.inr hl
  · exact absurd hf (List.not_mem_nil f)
termination_by signal.length - i
decreasing_by
  all_goals omega

theorem sorted_getD_lt {time : List ℚ} (hmono : time.Sorted (· < ·))
    {p q : ℕ} (hpq : p < q) (hq : q < time.length) :
    time.getD p 0 < time.getD q 0 := by
  have hp : p < time.length := lt_trans hpq hq
  rw [time.getD_eq_getElem 0 hp, time.getD_eq_getElem 0 hq]
  exact List.pairwise_iff_get.mp hmono ⟨p, hp⟩ ⟨q, hq⟩ hpq

theorem sorted_getD_le {time : List ℚ} (hmono : time.Sorted (· < ·))
    {p q : ℕ} (hpq : p ≤ q) (hq : q < time.length) :
    time.getD p 0 ≤ time.getD q 0 := by
  rcases Nat.eq_or_lt_of_le hpq with rfl | hlt
  · exact le_refl _
  · exact le_of_lt (sorted_getD_lt hmono hlt hq)

/-- Fragments produced from index `i` on are pairwise disjoint and their
starts strictly increase, provided the timestamps strictly increase. -/
theorem goFrag_pairwise (time signal : List ℚ)
    (threshold min_duration_s : ℚ)
    (hlen : time.length = signal.length) (hmono : time.Sorted (· < ·))
    (i : ℕ) :
    List.Pairwise (fun f g => f.stop < g.start ∧ f.start < g.start)
      (goFrag time signal threshold min_duration_s i) := by
  rw [goFrag]
  split
  · rename_i h
    split
    · rename_i hb
      have hj1 : i + 1 ≤ firstAbove signal threshold i :=
        firstAbove_ge_succ h hb
      have hj2 : firstAbove signal threshold i ≤ signal.length :=
        firstAbove_le_length (le_of_lt h)
      have hrest : List.Pairwise
          (fun f g => f.stop < g.start ∧ f.start < g.start)
          (goFrag time signal threshold min_duration_s
            (firstAbove signal threshold i)) :=
        goFrag_pairwise time signal threshold min_duration_s hlen hmono
          (firstAbove signal threshold i)
      have hgt : ∀ g ∈ goFrag time signal threshold min_duration_s
          (firstAbove signal threshold i),
          time.getD (firstAbove signal threshold i - 1) 0 < g.start ∧
            time.getD i 0 < g.start := by
        intro g hg
        obtain ⟨a, b, ha, hab, hb', hs, _, hrun, _, _, _⟩ :=
          goFrag_spec time signal threshold min_duration_s
            (firstAbove signal threshold i) g hg
        have hane : a ≠ firstAbove signal threshold i := by
          intro heqa
          rcases firstAbove_exit signal threshold (le_of_lt h) with heq | ⟨_, hnb⟩
          · have : a < signal.length := lt_of_le_of_lt hab hb'
            omega
          · exact hnb (heqa ▸ hrun a (le_refl a) hab)
        have haL : a < time.length := by
          rw [hlen]; exact lt_of_le_of_lt hab hb'
        constructor
        · rw [hs]
          exact sorted_getD_lt hmono (by omega) haL
        · rw [hs]
          exact sorted_getD_lt hmono (by omega) haL
      dsimp only
      split
      · exact List.Pairwise.cons (fun g hg => ⟨(hgt g hg).1, (hgt g hg).2⟩)
          hrest
      · exact hrest
    · exact goFrag_pairwise time signal threshold min_duration_s hlen hmono
        (i + 1)
  · exact List.Pairwise.nil
termination_by signal.length - i
decreasing_by
  all_goals omega

/-- C1: for every strictly increasing timestamp sequence, every intensity
signal of the same length, every threshold and every `min_duration_s`, each
fragment `(t0, t1)` returned by `find_fragments` is the time span of a
maximal consecutive run of samples with intensity strictly below the
threshold, satisfies `t1 - t0 >= min_duration_s`, contains no sample with
intensity `>= threshold` in `[t0, t1]`, and the returned fragment list is
pairwise disjoint and sorted strictly ascending by start. -/
theorem find_fragments_spec (time signal : List ℚ)
    (threshold min_duration_s : ℚ)
    (hlen : time.length = signal.length) (hmono : time.Sorted (· < ·)) :
    (∀ f ∈ find_fragments (some time) (some signal) threshold
        min_duration_s,
      (∃ a b : ℕ, a ≤ b ∧ b < signal.length ∧
        f.start = time.getD a 0 ∧ f.stop = time.getD b 0 ∧
        (∀ k, a ≤ k → k ≤ b → signal.getD k 0 < threshold) ∧
        (a = 0 ∨ ¬ signal.getD (a - 1) 0 < threshold) ∧
        (b + 1 = signal.length ∨ ¬ signal.getD (b + 1) 0 < threshold)) ∧
      min_duration_s ≤ f.stop - f.start ∧
      (∀ k, k < signal.length → f.start ≤ time.getD k 0 →
        time.getD k 0 ≤ f.stop → signal.getD k 0 < threshold)) ∧
    List.Pairwise (fun f g => f.stop < g.start ∧ f.start < g.start)
      (find_fragments (some time) (some signal) threshold min_duration_s) := by
  constructor
  · intro f hf
    obtain ⟨a, b, _, hab, hb', hs, he, hrun, hleft, hright, hdur⟩ :=
      goFrag_spec time signal threshold min_duration_s 0 f hf
    have haL : a < time.length := by
      rw [hlen]; exact lt_of_le_of_lt hab hb'
    have hbL : b < time.length := by rw [hlen]; exact hb'
    refine ⟨⟨a, b, hab, hb', hs, he, hrun, ?_, hright⟩, hdur, ?_⟩
    · rcases hleft with h0 | ⟨_, hl⟩
      · exact Or.inl h0
      · exact Or.inr hl
    · intro k hk hk1 hk2
      have hka : a ≤ k := by
        by_contra hcon
        have : time.getD k 0 < time.getD a 0 :=
          sorted_getD_lt hmono (by omega) haL
        rw [← hs] at this
        exact absurd hk1 (not_le_of_lt this)
      have hkb : k ≤ b := by
        by_contra hcon
        have : time.getD b 0 < time.getD k 0 :=
          sorted_getD_lt hmono (by omega) (by rw [hlen]; exact hk)
        rw [← he] at this
        exact absurd hk2 (not_le_of_lt this)
      exact hrun k hka hkb
  · exact goFrag_pairwise time signal threshold min_duration_s hlen hmono 0

/-- Witness for C1 at `time = [0, 1, 2, 3]`,
`signal = [0, 0, 1, 0]`, `threshold = 1/2`, `min_duration_s = 1`. -/
theorem find_fragments_spec_witness :
    ((0 : ℚ) :: 1 :: 2 :: [(3 : ℚ)]).length
        = ((0 : ℚ) :: 0 :: 1 :: [(0 : ℚ)]).length ∧
      List.Sorted (· < ·) ((0 : ℚ) :: 1 :: 2 :: [(3 : ℚ)]) ∧
      ((∀ f ∈ find_fragments (some ((0 : ℚ) :: 1 :: 2 :: [(3 : ℚ)]))
          (some ((0 : ℚ) :: 0 :: 1 :: [(0 : ℚ)])) (1/2) 1,
        (∃ a b : ℕ, a ≤ b ∧ b < ((0 : ℚ) :: 0 :: 1 :: [(0 : ℚ)]).length ∧
          f.start = ((0 : ℚ) :: 1 :: 2 :: [(3 : ℚ)]).getD a 0 ∧
          f.stop = ((0 : ℚ) :: 1 :: 2 :: [(3 : ℚ)]).getD b 0 ∧
          (∀ k, a ≤ k → k ≤ b →
            ((0 : ℚ) :: 0 :: 1 :: [(0 : ℚ)]).getD k 0 < 1/2) ∧
          (a = 0 ∨
            ¬ ((0 : ℚ) :: 0 :: 1 :: [(0 : ℚ)]).getD (a - 1) 0 < 1/2) ∧
          (b + 1 = ((0 : ℚ) :: 0 :: 1 :: [(0 : ℚ)]).length ∨
            ¬ ((0 : ℚ) :: 0 :: 1 :: [(0 : ℚ)]).getD (b + 1) 0 < 1/2)) ∧
        (1 : ℚ) ≤ f.stop - f.start ∧
        (∀ k, k < ((0 : ℚ) :: 0 :: 1 :: [(0 : ℚ)]).length →
          f.start ≤ ((0 : ℚ) :: 1 :: 2 :: [(3 : ℚ)]).getD k 0 →
          ((0 : ℚ) :: 1 :: 2 :: [(3 : ℚ)]).getD k 0 ≤ f.stop →
          ((0 : ℚ) :: 0 :: 1 :: [(0 : ℚ)]).getD k 0 < 1/2)) ∧
      List.Pairwise (fun f g => f.stop < g.start ∧ f.start < g.start)
        (find_fragments (some ((0 : ℚ) :: 1 :: 2 :: [(3 : ℚ)]))
          (some ((0 : ℚ) :: 0 :: 1 :: [(0 : ℚ)])) (1/2) 1)) :=
  ⟨by decide, by decide,
    find_fragments_spec ((0 : ℚ) :: 1 :: 2 :: [(3 : ℚ)])
      ((0 : ℚ) :: 0 :: 1 :: [(0 : ℚ)]) (1/2) 1 (by decide) (by decide)⟩

/-- `np.diff` on a 1-d array: consecutive differences. -/
def npDiff (t : List ℚ) : List ℚ :=
  (t.zip t.tail).map fun p => p.2 - p.1

/-- `np.median`: sort, take the middle element (odd length) or the mean of
the two middle elements (even length). -/
def npMedian (l : List ℚ) : ℚ :=
  let s := List.insertionSort (· ≤ ·) l
  if s.length % 2 = 1 then s.getD (s.length / 2) 0
  else (s.getD (s.length / 2 - 1) 0 + s.getD (s.length / 2) 0) / 2

/-- Python `int()` applied to a float: truncation toward zero. -/
def pyInt (q : ℚ) : ℤ :=
  if q < 0 then ⌈q⌉ else ⌊q⌋

/-- `noshake.py` lines 73-78: `dt = np.median(np.diff(t)) if len(t) > 1
else 1.0`, `fs = 1.0 / dt`, `win_samples = max(1, int(sliding_window_s *
fs))`. -/
def winSamples (t : List ℚ) (sliding_window_s : ℚ) : ℤ :=
  let dt := if 1 < t.length then npMedian (npDiff t) else 1
  let fs := 1 / dt
  max 1 (pyInt (sliding_window_s * fs))

/-- Modelled from the spec (section 4.2): sampling rate estimated as
`1 / median(consecutive timestamp differences)`, fallback 1.0 Hz if fewer
than 2 timestamps. -/
def samplingRate (t : List ℚ) : ℚ :=
  if 1 < t.length then 1 / npMedian (npDiff t) else 1

/-- Modelled from the spec (section 4.2): window length in samples as the
spec words it, `max(1, round(window_seconds * sampling_rate))`. -/
def winSamplesSpec (t : List ℚ) (window_seconds : ℚ) : ℤ :=
  max 1 (round (window_seconds * samplingRate t))

/-- C2 counterexample: with timestamps `[0, 2/3, 4/3]` the median interval
is `2/3`, so `window_seconds * sampling_rate = 3/2`; the code truncates it
to 1 while the spec formula rounds it to 2. -/
theorem winSamples_ne_spec :
    winSamples ((0 : ℚ) :: (2/3 : ℚ) :: [(4/3 : ℚ)]) 1 = 1 ∧
      winSamplesSpec ((0 : ℚ) :: (2/3 : ℚ) :: [(4/3 : ℚ)]) 1 = 2 ∧
      winSamples ((0 : ℚ) :: (2/3 : ℚ) :: [(4/3 : ℚ)]) 1 ≠
        winSamplesSpec ((0 : ℚ) :: (2/3 : ℚ) :: [(4/3 : ℚ)]) 1 := by
  have h1 : winSamples ((0 : ℚ) :: (2/3 : ℚ) :: [(4/3 : ℚ)]) 1 = 1 := by
    norm_num [winSamples, npDiff, npMedian, pyInt, List.insertionSort,
      List.orderedInsert]
  have h2 : winSamplesSpec ((0 : ℚ) :: (2/3 : ℚ) :: [(4/3 : ℚ)]) 1 = 2 := by
    norm_num [winSamplesSpec, samplingRate, npDiff, npMedian,
      List.insertionSort, List.orderedInsert, round_eq]
  exact ⟨h1, h2, by rw [h1, h2]; norm_num⟩

/-- C2 amended: the window length in samples equals
`max(1, truncate(window_seconds * sampling_rate))` — truncation toward
zero (Python `int`), not rounding — with the sampling rate as the spec
describes it (`1 / median`, fallback 1.0 Hz below 2 timestamps). -/
theorem winSamples_eq_trunc_formula (t : List ℚ) (window_seconds : ℚ) :
    winSamples t window_seconds =
      max 1 (pyInt (window_seconds * samplingRate t)) := by
  unfold winSamples samplingRate
  split
  · rfl
  · norm_num

/-- Discrete linear convolution (`np.convolve`, mode `'full'`): entry `k`
is the sum of `a[j] * v[k - j]` over all in-range `j`. -/
def convolveFull (a v : List ℚ) : List ℚ :=
  (List.range (a.length + v.length - 1)).map fun k =>
    ∑ j ∈ Finset.range a.length,
      if j ≤ k ∧ k - j < v.length then a.getD j 0 * v.getD (k - j) 0 else 0

/-- `np.convolve(..., mode='same')`: the centered `max(M, N)` entries of
the full convolution. -/
def convolveSame (a v : List ℚ) : List ℚ :=
  ((convolveFull a v).drop ((min a.length v.length - 1) / 2)).take
    (max a.length v.length)

theorem length_convolveFull (a v : List ℚ) :
    (convolveFull a v).length = a.length + v.length - 1 := by
  simp [convolveFull]

theorem length_convolveSame (a v : List ℚ) (ha : 1 ≤ a.length)
    (hv : 1 ≤ v.length) :
    (convolveSame a v).length = max a.length v.length := by
  simp only [convolveSame, List.length_take, List.length_drop,
    length_convolveFull]
  omega

/-- `noshake.py` lines 77-83 with the window length in samples as an
explicit parameter: square the acceleration, convolve with the uniform
kernel (mode `'same'`), take elementwise square roots (`sqrtF` abstracts
`np.sqrt`), then re-align: keep `sliding_rms[half_len:len(t)]` and pad the
tail with `half_len` copies of the last smoothed value. -/
def slidingRmsStep (sqrtF : ℚ → ℚ) (angle_acc t : List ℚ)
    (win_samples : ℕ) : List ℚ :=
  let sq := angle_acc.map fun x => x * x
  let kernel := List.replicate win_samples ((1 : ℚ) / (win_samples : ℚ))
  let sliding_rms := (convolveSame sq kernel).map sqrtF
  let half_len := win_samples / 2
  ((sliding_rms.take t.length).drop half_len) ++
    List.replicate half_len (sliding_rms.getLast?.getD 0)

theorem length_slidingRmsStep (sqrtF : ℚ → ℚ) (angle_acc t : List ℚ)
    (w : ℕ) (hw : 1 ≤ w) (hlen : angle_acc.length = t.length)
    (hn : 1 ≤ t.length) :
    (slidingRmsStep sqrtF angle_acc t w).length = max t.length (w / 2) := by
  have hc : (convolveSame (angle_acc.map fun x => x * x)
      (List.replicate w ((1 : ℚ) / (w : ℚ)))).length = max t.length w := by
    rw [length_convolveSame _ _ (by simpa [hlen] using hn) (by simpa using hw)]
    simp [hlen]
  simp only [slidingRmsStep, List.length_append, List.length_drop,
    List.length_take, List.length_replicate, List.length_map, hc]
  omega

/-- C3 counterexample: with 2 samples and window length 6 in samples the
re-aligned sliding RMS has length `6 / 2 = 3`, not the input length 2. -/
theorem slidingRmsStep_length_ne :
    (slidingRmsStep id ((0 : ℚ) :: [(0 : ℚ)]) ((0 : ℚ) :: [(1 : ℚ)])
        6).length ≠ ((0 : ℚ) :: [(1 : ℚ)]).length := by
  rw [length_slidingRmsStep id _ _ 6 (by norm_num) (by simp) (by simp)]
  simp

/-- C3 amended: for every non-empty acceleration signal and timestamp
sequence of equal length and every positive window size `w`, the
sliding-RMS step output has the same length as the timestamps provided
`w / 2 ≤ len(t)`; in general the length is `max (len t) (w / 2)`. -/
theorem slidingRmsStep_length_eq (sqrtF : ℚ → ℚ) (angle_acc t : List ℚ)
    (w : ℕ) (hw : 1 ≤ w) (hlen : angle_acc.length = t.length)
    (hn : 1 ≤ t.length) (hhalf : w / 2 ≤ t.length) :
    (slidingRmsStep sqrtF angle_acc t w).length = t.length := by
  rw [length_slidingRmsStep sqrtF angle_acc t w hw hlen hn]
  omega

/-- Witness for C3 (amended) at `angle_acc = [0, 0]`, `t = [0, 1]`,
window length 2. -/
theorem slidingRmsStep_length_eq_witness :
    (1 ≤ 2 ∧ ((0 : ℚ) :: [(0 : ℚ)]).length = ((0 : ℚ) :: [(1 : ℚ)]).length ∧
      1 ≤ ((0 : ℚ) :: [(1 : ℚ)]).length ∧ 2 / 2 ≤ ((0 : ℚ) :: [(1 : ℚ)]).length) ∧
    (slidingRmsStep id ((0 : ℚ) :: [(0 : ℚ)]) ((0 : ℚ) :: [(1 : ℚ)])
        2).length = ((0 : ℚ) :: [(1 : ℚ)]).length :=
  ⟨⟨by decide, by decide, by decide, by decide⟩,
    slidingRmsStep_length_eq id _ _ 2 (by decide) (by decide) (by decide)
      (by decide)⟩

/-- Relative rotations of consecutive elements: `R_curr * R_prev.inv()`
(`noshake.py` lines 55-57 and 65-67), for an abstract rotation type with
composition `mul` and inverse `inv`. -/
def relRots {α : Type} (mul : α → α → α) (inv : α → α) (l : List α) :
    List α :=
  ((l.drop 1).zip l).map fun p => mul p.1 (inv p.2)

/-- `cori_sliding_rms` (`noshake.py` lines 37-85) over an abstract
rotation type `α`: `mul`/`inv` abstract scipy rotation composition and
inverse, `rotDeg` the rotation-vector magnitude in degrees, `sqrtF` the
elementwise `np.sqrt`.  Returns `(t, angle_deg, angle_acc, sliding_rms)`.
The Python code binds the local `R_rel` only inside the `len(R_all) > 1`
branch (line 57) yet reads it unconditionally at line 64; with exactly one
sample that read raises `NameError`, modelled as `Except.error`. -/
def cori_sliding_rms {α : Type} (mul : α → α → α) (inv : α → α)
    (rotDeg : α → ℚ) (sqrtF : ℚ → ℚ) (R_all : List α) (t : List ℚ)
    (sliding_window_s : ℚ) :
    Except Unit (List ℚ × List ℚ × List ℚ × List ℚ) :=
  if R_all.length = 0 then
    Except.ok ([], [], [], [])
  else if 1 < R_all.length then
    let R_rel := relRots mul inv R_all
    let angle_deg := 0 :: R_rel.map rotDeg
    let angle_acc :=
      if 1 < R_rel.length then
        0 :: 0 :: (relRots mul inv R_rel).map rotDeg
      else
        [0, 0]
    let win_samples := (winSamples t sliding_window_s).toNat
    Except.ok (t, angle_deg, angle_acc,
      slidingRmsStep sqrtF angle_acc t win_samples)
  else
    -- `angle_deg = np.array([0.0])` is assigned, then line 64 evaluates
    -- `len(R_rel)` with `R_rel` unbound: Python raises `NameError`.
    Except.error ()

/-- C4: the claim says that on exactly one orientation sample
`cori_sliding_rms` terminates without error with displacement `[0]` and an
all-zero acceleration; the code instead reads the unassigned local `R_rel`
at `noshake.py` line 64 and raises `NameError`.  With 2 samples (and with
0) the claimed zero-padding does hold, as the second and third conjuncts
record. -/
theorem cori_sliding_rms_one_sample_error :
    cori_sliding_rms (fun _ _ => ()) (fun _ => ()) (fun _ => 0) id
        [()] [(0 : ℚ)] 1 = Except.error () ∧
      cori_sliding_rms (fun _ _ => ()) (fun _ => ()) (fun _ => 0) id
        [] [] 1 = Except.ok ([], [], [], []) ∧
      cori_sliding_rms (fun _ _ => ()) (fun _ => ()) (fun _ => 0) id
        [(), ()] ((0 : ℚ) :: [(1 : ℚ)]) 1 =
        Except.ok (((0 : ℚ) :: [(1 : ℚ)]), ((0 : ℚ) :: [(0 : ℚ)]),
          ((0 : ℚ) :: [(0 : ℚ)]), ((0 : ℚ) :: [(0 : ℚ)])) := by
  refine ⟨rfl, rfl, ?_⟩
  norm_num [cori_sliding_rms, relRots, winSamples, npDiff, npMedian, pyInt,
    slidingRmsStep, convolveSame, convolveFull, List.insertionSort,
    List.orderedInsert, List.getLast?, Finset.sum_range_succ,
    List.range_succ]

/-- Per-file inputs of the `process_directory` loop (`noshake.py`
lines 227-256): the telemetry-derived timestamps and sliding RMS, and the
`ffprobe` duration (`None` when it cannot be determined). -/
structure FileInput where
  t : List ℚ
  sliding_rms : List ℚ
  duration : Option ℚ

/-- The per-file fragment computation of `process_directory`
(`noshake.py` lines 240-256): an empty motion signal triggers the
whole-file fallback `(0, duration)`, an undeterminable duration yields no
fragments, otherwise `find_fragments` runs. -/
def fileFragments (t sliding_rms : List ℚ) (duration : Option ℚ)
    (threshold min_duration_s : ℚ) : List Frag :=
  if sliding_rms.length = 0 then
    match duration with
    | none => []
    | some d => [⟨0, d⟩]
  else
    find_fragments (some t) (some sliding_rms) threshold min_duration_s

/-- `process_directory` over its video files (`noshake.py` lines 227-282):
each file is processed independently and contributes one record. -/
def process_directory (files : List FileInput)
    (threshold min_duration_s : ℚ) : List (List Frag) :=
  files.map fun f =>
    fileFragments f.t f.sliding_rms f.duration threshold min_duration_s

/-- C8: for every file, if the motion signal is empty the per-file
processing emits exactly the single whole-file fragment `(0, duration)`;
if the duration is also undeterminable the file contributes zero
fragments; and every file contributes exactly one record, so processing
continues over the remaining files either way. -/
theorem process_directory_fallback (files : List FileInput)
    (threshold min_duration_s : ℚ) :
    (process_directory files threshold min_duration_s).length =
        files.length ∧
      ∀ f ∈ files, f.sliding_rms = [] →
        (∀ d, f.duration = some d →
          fileFragments f.t f.sliding_rms f.duration threshold
              min_duration_s = [⟨0, d⟩]) ∧
        (f.duration = none →
          fileFragments f.t f.sliding_rms f.duration threshold
              min_duration_s = []) := by
  refine ⟨List.length_map _ _, ?_⟩
  intro f _ hrms
  constructor
  · intro d hd
    simp [fileFragments, hrms, hd]
  · intro hd
    simp [fileFragments, hrms, hd]

/-- Witness for C8: a telemetry-less file with duration 5 yields the
single fragment `(0, 5)`; one with unknown duration yields nothing. -/
theorem process_directory_fallback_witness :
    fileFragments [] [] (some 5) (1/2) 3 = [⟨0, 5⟩] ∧
      fileFragments [] [] none (1/2) 3 = [] :=
  ⟨((process_directory_fallback [⟨[], [], some 5⟩] (1/2) 3).2
      ⟨[], [], some 5⟩ (List.mem_singleton.mpr rfl) rfl).1 5 rfl,
    ((process_directory_fallback [⟨[], [], none⟩] (1/2) 3).2
      ⟨[], [], none⟩ (List.mem_singleton.mpr rfl) rfl).2 rfl⟩

/-- A raw fragment as read from a per-file JSON
(`index_by_resolution.py` lines 85-92): `start`/`end` may be missing or
non-numeric, modelled as `Option`. -/
structure RawFragment where
  start? : Option ℚ
  stop? : Option ℚ

/-- A parsed per-file JSON record as `gather_index` sees it
(`index_by_resolution.py` lines 62-103): filename, optional resolution
(whose `width`/`height` may each be missing), creation datetime already
parsed by `parse_iso_datetime` (`None` when absent or unparsable;
datetimes modelled as integers ordered chronologically), and the raw
fragment list. -/
structure FileData where
  filename : String
  resolution : Option (Option ℤ × Option ℤ)
  creation_datetime : Option ℤ
  fragments : List RawFragment

/-- `resolution_key` (`index_by_resolution.py` lines 48-55). -/
def resolution_key : Option (Option ℤ × Option ℤ) → String
  | none => "unknown"
  | some (none, _) => "unknown"
  | some (_, none) => "unknown"
  | some (some w, some h) => toString w ++ "x" ++ toString h

/-- Normalization and filtering of one file's fragments
(`index_by_resolution.py` lines 84-95): entries without numeric
`start`/`end` are dropped, a fragment is kept when `end >= start`, and the
result is stably sorted by `start` (Python `list.sort` is stable; a stable
structural sort models it). -/
def normalizeFragments (fragments : List RawFragment) : List Frag :=
  List.insertionSort (fun a b => a.start ≤ b.start)
    (fragments.filterMap fun f =>
      match f.start?, f.stop? with
      | some s, some e => if s ≤ e then some ⟨s, e⟩ else none
      | _, _ => none)

/-- One per-file entry of a resolution group
(`index_by_resolution.py` lines 97-101). -/
structure Entry where
  filename : String
  creation_datetime : Option ℤ
  fragments : List Frag

/-- `groups.setdefault(res_str, []).append(entry)` on an
insertion-ordered dict modelled as an association list
(`index_by_resolution.py` line 103). -/
def addToGroups (groups : List (String × List Entry)) (key : String)
    (e : Entry) : List (String × List Entry) :=
  if groups.any fun p => p.1 = key then
    groups.map fun p => if p.1 = key then (p.1, p.2 ++ [e]) else p
  else
    groups ++ [(key, [e])]

/-- The per-file entry built for one record by the grouping loop
(`index_by_resolution.py` lines 97-101). -/
def mkEntry (r : FileData) : Entry :=
  ⟨r.filename, r.creation_datetime, normalizeFragments r.fragments⟩

/-- The grouping loop of `gather_index`
(`index_by_resolution.py` lines 60-103). -/
def gatherGroups (records : List FileData) : List (String × List Entry) :=
  records.foldl
    (fun gs r => addToGroups gs (resolution_key r.resolution) (mkEntry r))
    []

/-- The Python sort key `(e["creation_datetime"] is None,
e["creation_datetime"])` (`index_by_resolution.py` line 109): absent
creation times sort after all defined ones. -/
def creationKeyLe : Option ℤ → Option ℤ → Prop
  | none, none => True
  | none, some _ => False
  | some _, none => True
  | some a, some b => a ≤ b

instance : DecidableRel creationKeyLe
  | none, none => isTrue trivial
  | none, some _ => isFalse id
  | some _, none => isTrue trivial
  | some a, some b => inferInstanceAs (Decidable (a ≤ b))

/-- A flattened fragment entry of the Index
(`index_by_resolution.py` lines 115-120), carrying the denormalized
creation datetime and filename. -/
structure IdxFrag where
  creation : Option ℤ
  filename : String
  start : ℚ
  stop : ℚ
  deriving DecidableEq

/-- One resolution group of the Index
(`index_by_resolution.py` lines 122-125). -/
structure Group where
  resolution : String
  file_fragments : List IdxFrag
  deriving DecidableEq

/-- `gather_index` (`index_by_resolution.py` lines 58-127) on parsed
records: group by resolution key, sort groups by key string, sort each
group's entries by `(creation is None, creation)` (stable), flatten each
entry's already-sorted fragments with the denormalized
`(creation, filename)`. -/
def gather_index (records : List FileData) : List Group :=
  (List.insertionSort (fun p q => p.1 ≤ q.1) (gatherGroups records)).map
    fun p =>
      let entries := List.insertionSort
        (fun e1 e2 => creationKeyLe e1.creation_datetime e2.creation_datetime)
        p.2
      ⟨p.1, entries.flatMap fun e =>
        e.fragments.map fun fr =>
          ⟨e.creation_datetime, e.filename, fr.start, fr.stop⟩⟩

theorem creationKeyLe_refl (a : Option ℤ) : creationKeyLe a a := by
  cases a <;> simp [creationKeyLe]

theorem creationKeyLe_total (a b : Option ℤ) :
    creationKeyLe a b ∨ creationKeyLe b a := by
  cases a <;> cases b <;> simp [creationKeyLe]
  exact le_total _ _

theorem creationKeyLe_trans {a b c : Option ℤ} (h1 : creationKeyLe a b)
    (h2 : creationKeyLe b c) : creationKeyLe a c := by
  cases a <;> cases b <;> cases c <;> simp_all [creationKeyLe]
  exact le_trans h1 h2

instance : IsTotal Frag fun a b => a.start ≤ b.start :=
  ⟨fun a b => le_total _ _⟩

instance : IsTrans Frag fun a b => a.start ≤ b.start :=
  ⟨fun _ _ _ => le_trans⟩

instance : IsTotal (String × List Entry) fun p q => p.1 ≤ q.1 :=
  ⟨fun a b => le_total _ _⟩

instance : IsTrans (String × List Entry) fun p q => p.1 ≤ q.1 :=
  ⟨fun _ _ _ => le_trans⟩

instance : IsTotal Entry fun e1 e2 =>
    creationKeyLe e1.creation_datetime e2.creation_datetime :=
  ⟨fun a b => creationKeyLe_total _ _⟩

instance : IsTrans Entry fun e1 e2 =>
    creationKeyLe e1.creation_datetime e2.creation_datetime :=
  ⟨fun _ _ _ => creationKeyLe_trans⟩

theorem normalizeFragments_sorted (l : List RawFragment) :
    List.Pairwise (fun a b : Frag => a.start ≤ b.start)
      (normalizeFragments l) :=
  List.sorted_insertionSort _ _

/-- Keys of an association-list group map, before and after an upsert. -/
theorem addToGroups_fst (gs : List (String × List Entry)) (k : String)
    (e : Entry) :
    (addToGroups gs k e).map Prod.fst =
      if gs.any fun p => p.1 = k then gs.map Prod.fst
      else gs.map Prod.fst ++ [k] := by
  unfold addToGroups
  split
  · rw [List.map_map]
    refine List.map_congr_left fun p _ => ?_
    by_cases h : p.1 = k <;> simp [h]
  · simp

theorem addToGroups_keys_nodup {gs : List (String × List Entry)}
    {k : String} (e : Entry) (h : (gs.map Prod.fst).Nodup) :
    ((addToGroups gs k e).map Prod.fst).Nodup := by
  rw [addToGroups_fst]
  split
  · exact h
  · rename_i hany
    simp only [List.any_eq_true, decide_eq_true_eq, not_exists] at hany
    simp only [List.nodup_append, List.nodup_cons, List.nodup_nil]
    refine ⟨h, ⟨by simp, trivial⟩, ?_⟩
    intro a ha
    simp only [List.mem_map] at ha
    obtain ⟨p, hp, rfl⟩ := ha
    simp only [List.mem_singleton]
    intro hcon
    exact hany p ⟨hp, hcon⟩

/-- Invariant of the grouping fold: group keys are distinct and every
stored entry's fragment list is sorted by start. -/
def GroupsInv (gs : List (String × List Entry)) : Prop :=
  (gs.map Prod.fst).Nodup ∧
    ∀ p ∈ gs, ∀ e ∈ p.2,
      List.Pairwise (fun a b : Frag => a.start ≤ b.start) e.fragments

theorem addToGroups_inv {gs : List (String × List Entry)} {k : String}
    {e : Entry} (h : GroupsInv gs)
    (he : List.Pairwise (fun a b : Frag => a.start ≤ b.start) e.fragments) :
    GroupsInv (addToGroups gs k e) := by
  refine ⟨addToGroups_keys_nodup e h.1, ?_⟩
  intro p hp e' he'
  unfold addToGroups at hp
  split at hp
  · simp only [List.mem_map] at hp
    obtain ⟨q, hq, rfl⟩ := hp
    by_cases hqk : q.1 = k
    · simp only [if_pos hqk] at he'
      rcases List.mem_append.mp he' with hold | hnew
      · exact h.2 q hq e' hold
      · rw [List.mem_singleton.mp hnew]
        exact he
    · simp only [if_neg hqk] at he'
      exact h.2 q hq e' he'
  · rcases List.mem_append.mp hp with hold | hnew
    · exact h.2 p hold e' he'
    · rw [List.mem_singleton.mp hnew] at he'
      simp only [List.mem_singleton] at he'
      rw [he']
      exact he

theorem gatherGroups_inv_aux (records : List FileData)
    (gs : List (String × List Entry)) (h : GroupsInv gs) :
    GroupsInv (records.foldl
      (fun gs r => addToGroups gs (resolution_key r.resolution) (mkEntry r))
      gs) := by
  induction records generalizing gs with
  | nil => exact h
  | cons r rest ih =>
    exact ih _ (addToGroups_inv h (normalizeFragments_sorted _))

theorem gatherGroups_inv (records : List FileData) :
    GroupsInv (gatherGroups records) :=
  gatherGroups_inv_aux records [] ⟨List.nodup_nil, by simp⟩

/-- Filtering after an ordered insert: the inserted element lands in front
of every element matching the predicate, provided the relation holds from
it toward every matching element (the tie case of a stable sort). -/
theorem filter_orderedInsert {α : Type} (r : α → α → Prop) [DecidableRel r]
    (p : α → Bool) (a : α) (m : List α)
    (h : ∀ b, p b = true → p a = true → r a b) :
    (List.orderedInsert r a m).filter p =
      if p a = true then a :: m.filter p else m.filter p := by
  induction m with
  | nil =>
    cases hpa : p a <;> simp [hpa]
  | cons b m' ih =>
    rw [List.orderedInsert]
    split
    · rw [List.filter_cons]
    · rename_i hr
      rw [List.filter_cons]
      by_cases hpb : p b = true
      · have hpa : ¬ p a = true := fun hpa => hr (h b hpb hpa)
        simp [hpb, hpa, ih, List.filter_cons]
      · simp [hpb, ih, List.filter_cons]

/-- Stability of the structural stable sort: elements matching a predicate
that ties under the sort relation keep their relative order, so filtering
commutes with sorting. -/
theorem filter_insertionSort {α : Type} (r : α → α → Prop) [DecidableRel r]
    (p : α → Bool) (h : ∀ a b, p a = true → p b = true → r a b)
    (l : List α) :
    (List.insertionSort r l).filter p = l.filter p := by
  induction l with
  | nil => rfl
  | cons a l' ih =>
    rw [List.insertionSort,
      filter_orderedInsert r p a _ (fun b hb hpa => h a b hpa hb), ih,
      List.filter_cons]

theorem keys_subset_addToGroups (gs : List (String × List Entry))
    (k : String) (e : Entry) :
    ∀ x ∈ gs.map Prod.fst, x ∈ (addToGroups gs k e).map Prod.fst := by
  intro x hx
  rw [addToGroups_fst]
  split
  · exact hx
  · exact List.mem_append_left _ hx

theorem key_mem_addToGroups (gs : List (String × List Entry)) (k : String)
    (e : Entry) : k ∈ (addToGroups gs k e).map Prod.fst := by
  rw [addToGroups_fst]
  split
  · rename_i hany
    simp only [List.any_eq_true, decide_eq_true_eq] at hany
    obtain ⟨q, hq, hqk⟩ := hany
    exact List.mem_map.mpr ⟨q, hq, hqk⟩
  · exact List.mem_append_right _ (List.mem_singleton.mpr rfl)

/-- Contents invariant of the grouping fold: the entry list stored under a
key consists of what the initial groups held for it, followed by one entry
per processed record with that resolution key, in input order. -/
theorem gatherGroups_content_aux (records : List FileData)
    (gs : List (String × List Entry)) :
    ∀ p ∈ records.foldl
        (fun gs r => addToGroups gs (resolution_key r.resolution)
          (mkEntry r)) gs,
      ∃ pre : List Entry,
        ((p.1, pre) ∈ gs ∨ (pre = [] ∧ ∀ q ∈ gs, q.1 ≠ p.1)) ∧
        p.2 = pre ++ (records.filter fun r =>
          decide (resolution_key r.resolution = p.1)).map mkEntry := by
  induction records generalizing gs with
  | nil =>
    intro p hp
    refine ⟨p.2, Or.inl ?_, by simp⟩
    simpa using hp
  | cons r rest ih =>
    intro p hp
    rw [List.foldl_cons] at hp
    obtain ⟨pre', hpre', hp2⟩ :=
      ih (addToGroups gs (resolution_key r.resolution) (mkEntry r)) p hp
    rcases hpre' with hin | ⟨rfl, hnotin⟩
    · unfold addToGroups at hin
      split at hin
      · rename_i hany
        rw [List.mem_map] at hin
        obtain ⟨q, hq, hqe⟩ := hin
        by_cases hqk : q.1 = resolution_key r.resolution
        · rw [if_pos hqk] at hqe
          have h1 : q.1 = p.1 := (Prod.ext_iff.mp hqe).1
          have h2 : q.2 ++ [mkEntry r] = pre' := (Prod.ext_iff.mp hqe).2
          refine ⟨q.2, Or.inl ?_, ?_⟩
          · rw [← h1]
            simpa using hq
          · rw [List.filter_cons,
              if_pos (decide_eq_true (hqk ▸ h1 : resolution_key
                r.resolution = p.1))]
            rw [hp2, ← h2]
            simp
        · rw [if_neg hqk] at hqe
          have h1 : q.1 = p.1 := (Prod.ext_iff.mp hqe).1
          have h2 : q.2 = pre' := (Prod.ext_iff.mp hqe).2
          refine ⟨pre', Or.inl ?_, ?_⟩
          · rw [← h1, ← h2]
            simpa using hq
          · rw [List.filter_cons, if_neg (fun hdec =>
              hqk (h1.trans (of_decide_eq_true hdec).symm))]
            exact hp2
      · rename_i hany
        simp only [List.any_eq_true, decide_eq_true_eq, not_exists] at hany
        rcases List.mem_append.mp hin with hings | hlast
        · refine ⟨pre', Or.inl hings, ?_⟩
          rw [List.filter_cons, if_neg (fun hdec =>
            hany (p.1, pre') ⟨hings, (of_decide_eq_true hdec).symm⟩)]
          exact hp2
        · have hlast' := List.mem_singleton.mp hlast
          have h1 : p.1 = resolution_key r.resolution :=
            (Prod.ext_iff.mp hlast').1
          have h2 : pre' = [mkEntry r] :=
            (Prod.ext_iff.mp hlast').2
          refine ⟨[], Or.inr ⟨rfl, ?_⟩, ?_⟩
          · intro q hq hcon
            exact hany q ⟨hq, hcon.trans h1⟩
          · rw [List.filter_cons, if_pos (decide_eq_true h1.symm)]
            rw [hp2, h2]
            simp
    · refine ⟨[], Or.inr ⟨rfl, ?_⟩, ?_⟩
      · intro q hq hcon
        have hk : q.1 ∈ (addToGroups gs (resolution_key r.resolution)
            (mkEntry r)).map Prod.fst :=
          keys_subset_addToGroups gs _ _ q.1 (List.mem_map.mpr ⟨q, hq, rfl⟩)
        obtain ⟨q', hq', hq'1⟩ := List.mem_map.mp hk
        exact hnotin q' hq' (hq'1.trans hcon)
      · rw [List.filter_cons, if_neg (fun hdec => ?_)]
        · simpa using hp2
        · have hk := key_mem_addToGroups gs (resolution_key r.resolution)
            (mkEntry r)
          obtain ⟨q', hq', hq'1⟩ := List.mem_map.mp hk
          exact hnotin q' hq'
            (hq'1.trans (of_decide_eq_true hdec))

/-- The entry list of each group of `gatherGroups` is exactly the
entries of the records carrying that resolution key, in input order. -/
theorem gatherGroups_content (records : List FileData) :
    ∀ p ∈ gatherGroups records,
      p.2 = (records.filter fun r =>
        decide (resolution_key r.resolution = p.1)).map mkEntry := by
  intro p hp
  unfold gatherGroups at hp
  obtain ⟨pre, hpre, hp2⟩ := gatherGroups_content_aux records [] p hp
  rcases hpre with hin | ⟨rfl, _⟩
  · exact absurd hin (List.not_mem_nil _)
  · simpa using hp2

instance : DecidableRel fun r1 r2 : FileData =>
    creationKeyLe r1.creation_datetime r2.creation_datetime :=
  fun _ _ => inferInstanceAs (Decidable (creationKeyLe _ _))

instance : IsTotal FileData fun r1 r2 =>
    creationKeyLe r1.creation_datetime r2.creation_datetime :=
  ⟨fun _ _ => creationKeyLe_total _ _⟩

instance : IsTrans FileData fun r1 r2 =>
    creationKeyLe r1.creation_datetime r2.creation_datetime :=
  ⟨fun _ _ _ => creationKeyLe_trans⟩

/-- C5 amended: for every set of per-file records, the resolution groups
of the Index built by `gather_index` are sorted strictly ascending by
resolution key string; within each group the flattened fragment entries
are sorted (non-strictly) by the pair `(creation is-absent, creation)`
with absent creation times after all defined ones, and the flattened list
is exactly the file-by-file concatenation of the normalized fragments —
each file's block ascending by start and carrying that file's
`(creation, filename)` — of the stable creation-key sort of precisely the
records with that resolution key (stability: filtering any single creation
value commutes with the sort, so ties keep input order).  (Sorting by the
full triple including the start offset fails when two files share a
creation time.) -/
theorem gather_index_sorted (records : List FileData) :
    List.Pairwise (fun g h => g.resolution < h.resolution)
      (gather_index records) ∧
    ∀ g ∈ gather_index records,
      List.Pairwise (fun f1 f2 => creationKeyLe f1.creation f2.creation)
        g.file_fragments ∧
      ∃ sortedRecs : List FileData,
        sortedRecs.Perm (records.filter fun r =>
          decide (resolution_key r.resolution = g.resolution)) ∧
        List.Pairwise (fun r1 r2 =>
          creationKeyLe r1.creation_datetime r2.creation_datetime)
          sortedRecs ∧
        (∀ v : Option ℤ,
          sortedRecs.filter (fun r => decide (r.creation_datetime = v)) =
            (records.filter fun r =>
              decide (resolution_key r.resolution = g.resolution)).filter
              fun r => decide (r.creation_datetime = v)) ∧
        g.file_fragments = (sortedRecs.flatMap fun r =>
          (normalizeFragments r.fragments).map fun fr =>
            ⟨r.creation_datetime, r.filename, fr.start, fr.stop⟩) ∧
        ∀ r ∈ sortedRecs,
          List.Pairwise (fun a b : Frag => a.start ≤ b.start)
            (normalizeFragments r.fragments) := by
  have hinv := gatherGroups_inv records
  have hperm := List.perm_insertionSort
    (fun p q : String × List Entry => p.1 ≤ q.1) (gatherGroups records)
  constructor
  · have hsorted : List.Pairwise (fun p q : String × List Entry => p.1 ≤ q.1)
        (List.insertionSort (fun p q => p.1 ≤ q.1) (gatherGroups records)) :=
      List.sorted_insertionSort _ _
    have hnodup : ((List.insertionSort
        (fun p q : String × List Entry => p.1 ≤ q.1)
        (gatherGroups records)).map Prod.fst).Nodup :=
      ((hperm.map Prod.fst).nodup_iff).mpr hinv.1
    have hne : List.Pairwise (fun p q : String × List Entry => p.1 ≠ q.1)
        (List.insertionSort (fun p q => p.1 ≤ q.1) (gatherGroups records)) :=
      List.pairwise_map.mp hnodup
    rw [gather_index]
    rw [List.pairwise_map]
    exact (hsorted.and hne).imp fun h => lt_of_le_of_ne h.1 h.2
  · intro g hg
    rw [gather_index, List.mem_map] at hg
    obtain ⟨p, hp, rfl⟩ := hg
    have hpgs : p ∈ gatherGroups records := hperm.mem_iff.mp hp
    have hEsorted : List.Pairwise
        (fun e1 e2 : Entry =>
          creationKeyLe e1.creation_datetime e2.creation_datetime)
        (List.insertionSort
          (fun e1 e2 => creationKeyLe e1.creation_datetime
            e2.creation_datetime) p.2) :=
      List.sorted_insertionSort _ _
    have hEfr : ∀ e ∈ List.insertionSort
        (fun e1 e2 : Entry => creationKeyLe e1.creation_datetime
          e2.creation_datetime) p.2,
        List.Pairwise (fun a b : Frag => a.start ≤ b.start) e.fragments :=
      fun e he => hinv.2 p hpgs e
        ((List.perm_insertionSort _ p.2).mem_iff.mp he)
    constructor
    · simp only
      rw [List.pairwise_flatMap]
      constructor
      · intro e he
        rw [List.pairwise_map]
        exact (hEfr e he).imp fun _ => creationKeyLe_refl _
      · refine hEsorted.imp ?_
        intro e1 e2 h12 x hx y hy
        simp only [List.mem_map] at hx hy
        obtain ⟨fx, _, rfl⟩ := hx
        obtain ⟨fy, _, rfl⟩ := hy
        exact h12
    · have hp2 : p.2 = (records.filter fun r =>
          decide (resolution_key r.resolution = p.1)).map mkEntry :=
        gatherGroups_content records p hpgs
      refine ⟨List.insertionSort
          (fun r1 r2 : FileData => creationKeyLe r1.creation_datetime
            r2.creation_datetime)
          (records.filter fun r =>
            decide (resolution_key r.resolution = p.1)),
        List.perm_insertionSort _ _, List.sorted_insertionSort _ _,
        ?_, ?_, ?_⟩
      · intro v
        refine filter_insertionSort _ _ ?_ _
        intro a b ha hb
        have ha' : a.creation_datetime = v := of_decide_eq_true ha
        have hb' : b.creation_datetime = v := of_decide_eq_true hb
        rw [ha', hb']
        exact creationKeyLe_refl v
      · show (List.insertionSort
            (fun e1 e2 : Entry => creationKeyLe e1.creation_datetime
              e2.creation_datetime) p.2).flatMap
            (fun e => e.fragments.map fun fr =>
              IdxFrag.mk e.creation_datetime e.filename fr.start fr.stop) = _
        rw [hp2]
        rw [← List.map_insertionSort
          (fun r1 r2 : FileData => creationKeyLe r1.creation_datetime
            r2.creation_datetime)
          (fun e1 e2 : Entry => creationKeyLe e1.creation_datetime
            e2.creation_datetime)
          mkEntry _ (fun a _ b _ => Iff.rfl)]
        rw [List.flatMap_map]
        rfl
      · intro r _
        exact normalizeFragments_sorted _

/-- Modelled from the claim's wording: lexicographic order on the triple
`(creation is-absent, creation, start-offset-within-file)`, with absent
creation times after all defined ones. -/
def tripleLe (f g : IdxFrag) : Prop :=
  match f.creation, g.creation with
  | none, none => f.start ≤ g.start
  | none, some _ => False
  | some _, none => True
  | some a, some b => a < b ∨ (a = b ∧ f.start ≤ g.start)

instance : DecidableRel tripleLe := fun f g =>
  match f, g with
  | ⟨none, _, s1, _⟩, ⟨none, _, s2, _⟩ =>
    inferInstanceAs (Decidable (s1 ≤ s2))
  | ⟨none, _, _, _⟩, ⟨some _, _, _, _⟩ => inferInstanceAs (Decidable False)
  | ⟨some _, _, _, _⟩, ⟨none, _, _, _⟩ => inferInstanceAs (Decidable True)
  | ⟨some a, _, s1, _⟩, ⟨some b, _, s2, _⟩ =>
    inferInstanceAs (Decidable (a < b ∨ (a = b ∧ s1 ≤ s2)))

/-- C5 counterexample: two files with the same resolution and the same
creation time, the alphabetically first holding the later fragment
`(5, 6)`, the second holding `(1, 2)`.  The flattened group keeps the
stable file order, so the start offsets `5, 1` are out of order and the
list is not sorted by the triple `(creation is-absent, creation, start)`. -/
theorem gather_index_not_triple_sorted :
    ¬ ∀ g ∈ gather_index
        [⟨"a.mp4", none, some 0, [⟨some 5, some 6⟩]⟩,
         ⟨"b.mp4", none, some 0, [⟨some 1, some 2⟩]⟩],
        List.Pairwise tripleLe g.file_fragments := by
  decide

/-- C6: the claim (and the comment at `index_by_resolution.py` line 83,
"ensure start/end floats and start<end") requires `end > start` for every
retained fragment, but the filter at line 89 tests `e >= s`, so a
zero-length fragment `(0, 0)` is retained in the built Index. -/
theorem gather_index_zero_length_retained :
    gather_index [⟨"z.mp4", none, none, [⟨some 0, some 0⟩]⟩] =
      [⟨"unknown", [⟨none, "z.mp4", 0, 0⟩]⟩] ∧
    ¬ ∀ g ∈ gather_index [⟨"z.mp4", none, none, [⟨some 0, some 0⟩]⟩],
        ∀ fr ∈ g.file_fragments, fr.start < fr.stop := by
  refine ⟨?_, ?_⟩ <;> decide

/-- A JSON value, as written by `json.dump` and read back by `json.load`
(numbers as exact rationals: Python float repr round-trips exactly). -/
inductive Json where
  | null
  | str (s : String)
  | num (q : ℚ)
  | arr (items : List Json)
  | obj (fields : List (String × Json))

def keyCreation : String := "creation"

def keyFilename : String := "filename"

def keyStart : String := "start"

def keyEnd : String := "end"

def keyResolution : String := "resolution"

def keyFileFragments : String := "file_fragments"

/-- A persisted fragment entry of `index.json`
(`index_by_resolution.py` lines 115-120): the creation datetime is stored
as its ISO string, or `null`. -/
structure PFrag where
  creation : Option String
  filename : String
  start : ℚ
  stop : ℚ
  deriving DecidableEq

/-- A persisted resolution group of `index.json`
(`index_by_resolution.py` lines 122-125). -/
structure PGroup where
  resolution : String
  file_fragments : List PFrag
  deriving DecidableEq

/-- The serialized form of one `gather_index` group
(`index_by_resolution.py` line 114): the creation datetime is rendered by
`isoformat`, abstracted as an arbitrary rendering function `iso`. -/
def toPersist (iso : ℤ → String) (g : Group) : PGroup :=
  ⟨g.resolution, g.file_fragments.map fun fr =>
    ⟨fr.creation.map iso, fr.filename, fr.start, fr.stop⟩⟩

def encodeOptStr : Option String → Json
  | none => Json.null
  | some s => Json.str s

/-- `json.dump` of one fragment entry (`index_by_resolution.py`
lines 115-120 and 146). -/
def encodePFrag (f : PFrag) : Json :=
  Json.obj [(keyCreation, encodeOptStr f.creation),
    (keyFilename, Json.str f.filename),
    (keyStart, Json.num f.start),
    (keyEnd, Json.num f.stop)]

/-- `json.dump` of one resolution group (`index_by_resolution.py`
lines 122-125 and 146). -/
def encodePGroup (g : PGroup) : Json :=
  Json.obj [(keyResolution, Json.str g.resolution),
    (keyFileFragments, Json.arr (g.file_fragments.map encodePFrag))]

/-- `json.dump(index, ...)` (`index_by_resolution.py` line 146). -/
def encodeIndex (idx : List PGroup) : Json :=
  Json.arr (idx.map encodePGroup)

/-- Dictionary field access on a loaded JSON value. -/
def getField : Json → String → Option Json
  | Json.obj fields, key => (fields.find? fun p => p.1 = key).map Prod.snd
  | _, _ => none

def decodeStr : Json → Option String
  | Json.str s => some s
  | _ => none

def decodeNum : Json → Option ℚ
  | Json.num q => some q
  | _ => none

def decodeOptStr : Json → Option (Option String)
  | Json.null => some none
  | Json.str s => some (some s)
  | _ => none

/-- Reconstruction of one fragment entry from loaded JSON, per the reader
accesses `frag_entry["creation"]`, `["filename"]`, `["start"]`, `["end"]`
(`create_playlist.py` lines 102-105). -/
def decodePFrag (j : Json) : Option PFrag := do
  let c ← decodeOptStr (← getField j keyCreation)
  let fn ← decodeStr (← getField j keyFilename)
  let s ← decodeNum (← getField j keyStart)
  let e ← decodeNum (← getField j keyEnd)
  pure ⟨c, fn, s, e⟩

/-- Reconstruction of one resolution group from loaded JSON, per the
reader accesses `res_group["resolution"]` / `res_group["file_fragments"]`
(`create_playlist.py` lines 99-100, `concatenate_fragments.py`). -/
def decodePGroup (j : Json) : Option PGroup := do
  let r ← decodeStr (← getField j keyResolution)
  match ← getField j keyFileFragments with
  | Json.arr items => do
    let frs ← items.mapM decodePFrag
    pure ⟨r, frs⟩
  | _ => none

/-- `json.load` of a whole `index.json` (`create_playlist.py`
lines 25-32). -/
def decodeIndex (j : Json) : Option (List PGroup) :=
  match j with
  | Json.arr items => items.mapM decodePGroup
  | _ => none

theorem decodePFrag_encodePFrag (f : PFrag) :
    decodePFrag (encodePFrag f) = some f := by
  cases f with
  | mk c fn s e => cases c <;> rfl

theorem decodePGroup_encodePGroup (g : PGroup) :
    decodePGroup (encodePGroup g) = some g := by
  cases g with
  | mk r frs =>
    have hm : (frs.map encodePFrag).mapM decodePFrag = some frs := by
      rw [← List.mapM'_eq_mapM]
      induction frs with
      | nil => rfl
      | cons f rest ih =>
        simp only [List.map_cons, List.mapM', decodePFrag_encodePFrag,
          ih, Option.pure_def, Option.bind_eq_bind, Option.some_bind]
    simp only [decodePGroup, encodePGroup]
    show (do
      let r' ← decodeStr (Json.str r)
      match ← getField (Json.obj [(keyResolution, Json.str r),
          (keyFileFragments, Json.arr (frs.map encodePFrag))])
          keyFileFragments with
      | Json.arr items => do
        let frs' ← items.mapM decodePFrag
        pure (⟨r', frs'⟩ : PGroup)
      | _ => none) = some ⟨r, frs⟩
    rw [show getField (Json.obj [(keyResolution, Json.str r),
        (keyFileFragments, Json.arr (frs.map encodePFrag))])
        keyFileFragments = some (Json.arr (frs.map encodePFrag)) from rfl]
    simp only [Option.pure_def, Option.bind_eq_bind, Option.some_bind,
      decodeStr, hm]

/-- C7: serializing an Index to JSON and deserializing it back yields an
identical structure — the same field values and the same outer and inner
order; in particular this holds for the persisted form of every Index
produced by `gather_index`. -/
theorem decodeIndex_encodeIndex (iso : ℤ → String)
    (records : List FileData) (idx : List PGroup) :
    decodeIndex (encodeIndex
        ((gather_index records).map (toPersist iso))) =
      some ((gather_index records).map (toPersist iso)) ∧
    decodeIndex (encodeIndex idx) = some idx := by
  have hall : ∀ l : List PGroup, decodeIndex (encodeIndex l) = some l := by
    intro l
    have h' : (l.map encodePGroup).mapM' decodePGroup = some l := by
      induction l with
      | nil => rfl
      | cons g rest ih =>
        simp only [List.map_cons, List.mapM', decodePGroup_encodePGroup,
          ih, Option.pure_def, Option.bind_eq_bind, Option.some_bind]
    simpa only [decodeIndex, encodeIndex, List.mapM'_eq_mapM] using h'
  exact ⟨hall _, hall idx⟩

/-- The metadata collected for one successfully extracted fragment
(`create_playlist.py` lines 133-139). -/
structure Extracted where
  filename : String
  fragment_datetime : ℚ
  start : ℚ
  stop : ℚ
  source : String

/-- `fragment_datetime` (`create_playlist.py` lines 68-81): source file
creation time plus the fragment start offset.  `parseIso` abstracts
`datetime.fromisoformat` on the well-formed ISO strings an Index carries;
instants are modelled as rationals (seconds on a common epoch). -/
def fragment_datetime (parseIso : String → ℚ) (creation_dt_str : String)
    (fragment_start_s : ℚ) : ℚ :=
  parseIso creation_dt_str + fragment_start_s

/-- Python falsiness of the `creation` field
(`create_playlist.py` line 107): `None` or the empty string. -/
def creationFalsy : Option String → Bool
  | none => true
  | some c => c == ""

/-- The extraction loop body of `process_all_fragments`
(`create_playlist.py` lines 99-143) over the flattened fragment entries,
threading the set of already-existing output filenames: a falsy `creation`
is skipped; otherwise the fragment datetime and a fresh output name are
computed (`chooseName` abstracts the duplicate-counter loop of
lines 117-123, `fmtName` the `strftime` name base); a missing source file
skips the entry; `extractOk` abstracts the `ffmpeg` call, and only a
successful extraction appends a record (and creates the output file). -/
def processLoop (parseIso : String → ℚ) (fmtName : ℚ → String)
    (chooseName : List String → String → String)
    (sourceExists : String → Bool)
    (extractOk : String → ℚ → ℚ → String → Bool) :
    List PFrag → List String → List Extracted
  | [], _ => []
  | fe :: rest, existing =>
    match fe.creation with
    | none => processLoop parseIso fmtName chooseName sourceExists
        extractOk rest existing
    | some c =>
      if c = "" then
        processLoop parseIso fmtName chooseName sourceExists extractOk
          rest existing
      else
        let frag_dt := fragment_datetime parseIso c fe.start
        let output_filename := chooseName existing (fmtName frag_dt)
        if sourceExists fe.filename then
          if extractOk fe.filename fe.start fe.stop output_filename then
            ⟨output_filename, frag_dt, fe.start, fe.stop, fe.filename⟩ ::
              processLoop parseIso fmtName chooseName sourceExists
                extractOk rest (output_filename :: existing)
          else
            processLoop parseIso fmtName chooseName sourceExists extractOk
              rest existing
        else
          processLoop parseIso fmtName chooseName sourceExists extractOk
            rest existing

/-- `process_all_fragments` (`create_playlist.py` lines 84-144): all
resolution groups are flattened and processed in order with the output
directory initially holding `existing0`. -/
def process_all_fragments (parseIso : String → ℚ) (fmtName : ℚ → String)
    (chooseName : List String → String → String)
    (sourceExists : String → Bool)
    (extractOk : String → ℚ → ℚ → String → Bool)
    (index_data : List PGroup) (existing0 : List String) : List Extracted :=
  processLoop parseIso fmtName chooseName sourceExists extractOk
    (index_data.flatMap fun g => g.file_fragments) existing0

/-- The Index with the falsy-creation fragment entries removed. -/
def dropFalsy (index_data : List PGroup) : List PGroup :=
  index_data.map fun g =>
    ⟨g.resolution, g.file_fragments.filter fun fe => !creationFalsy fe.creation⟩

theorem processLoop_skip (parseIso : String → ℚ) (fmtName : ℚ → String)
    (chooseName : List String → String → String)
    (sourceExists : String → Bool)
    (extractOk : String → ℚ → ℚ → String → Bool)
    (fe : PFrag) (rest : List PFrag) (existing : List String)
    (hb : creationFalsy fe.creation = true) :
    processLoop parseIso fmtName chooseName sourceExists extractOk
        (fe :: rest) existing =
      processLoop parseIso fmtName chooseName sourceExists extractOk rest
        existing := by
  rcases hc : fe.creation with _ | c
  · rw [processLoop.eq_def]
    simp only [hc]
  · have hce : c = "" := by simpa [creationFalsy, hc] using hb
    rw [processLoop.eq_def]
    simp only [hc, if_pos hce]

theorem processLoop_filter (parseIso : String → ℚ) (fmtName : ℚ → String)
    (chooseName : List String → String → String)
    (sourceExists : String → Bool)
    (extractOk : String → ℚ → ℚ → String → Bool)
    (l : List PFrag) (existing : List String) :
    processLoop parseIso fmtName chooseName sourceExists extractOk
        (l.filter fun fe => !creationFalsy fe.creation) existing =
      processLoop parseIso fmtName chooseName sourceExists extractOk l
        existing := by
  induction l generalizing existing with
  | nil => rfl
  | cons fe rest ih =>
    by_cases hb : creationFalsy fe.creation = true
    · rw [List.filter_cons, if_neg (by simp [hb]), ih,
        processLoop_skip parseIso fmtName chooseName sourceExists
          extractOk fe rest existing hb]
    · rw [List.filter_cons, if_pos (by simp [Bool.not_eq_true] at hb ⊢; exact hb)]
      rcases hc : fe.creation with _ | c
      · exact absurd (by simp [creationFalsy, hc]) hb
      · have hce : ¬ c = "" := by
          intro hcon
          exact hb (by simp [creationFalsy, hc, hcon])
        rw [processLoop.eq_def]
        conv_rhs => rw [processLoop.eq_def]
        simp only [hc, if_neg hce]
        split
        · split
          · rw [ih]
          · rw [ih]
        · rw [ih]

/-- Every record produced by the extraction loop stems from an entry of
the processed list with a defined, non-empty creation string, and carries
that entry's offsets and the absolute timestamp `creation + start`. -/
theorem processLoop_mem_spec (parseIso : String → ℚ) (fmtName : ℚ → String)
    (chooseName : List String → String → String)
    (sourceExists : String → Bool)
    (extractOk : String → ℚ → ℚ → String → Bool)
    (l : List PFrag) (existing : List String) (r : Extracted)
    (hr : r ∈ processLoop parseIso fmtName chooseName sourceExists
      extractOk l existing) :
    ∃ fe ∈ l, ∃ c, fe.creation = some c ∧ c ≠ "" ∧
      r.fragment_datetime = parseIso c + fe.start ∧
      r.start = fe.start ∧ r.stop = fe.stop ∧ r.source = fe.filename := by
  induction l generalizing existing with
  | nil => exact absurd hr (List.not_mem_nil r)
  | cons fe rest ih =>
    rw [processLoop] at hr
    split at hr
    · obtain ⟨fe', hfe', hrest⟩ := ih existing hr
      exact ⟨fe', List.mem_cons_of_mem fe hfe', hrest⟩
    · rename_i c hc
      split at hr
      · obtain ⟨fe', hfe', hrest⟩ := ih existing hr
        exact ⟨fe', List.mem_cons_of_mem fe hfe', hrest⟩
      · rename_i hce
        dsimp only at hr
        split at hr
        · split at hr
          · rcases List.mem_cons.mp hr with rfl | hr'
            · exact ⟨fe, List.mem_cons_self fe rest,
                c, hc, hce, rfl, rfl, rfl, rfl⟩
            · obtain ⟨fe', hfe', hrest⟩ := ih _ hr'
              exact ⟨fe', List.mem_cons_of_mem fe hfe', hrest⟩
          · obtain ⟨fe', hfe', hrest⟩ := ih existing hr
            exact ⟨fe', List.mem_cons_of_mem fe hfe', hrest⟩
        · obtain ⟨fe', hfe', hrest⟩ := ih existing hr
          exact ⟨fe', List.mem_cons_of_mem fe hfe', hrest⟩

theorem dropFalsy_flatMap (index_data : List PGroup) :
    (dropFalsy index_data).flatMap (fun g => g.file_fragments) =
      (index_data.flatMap fun g => g.file_fragments).filter
        fun fe => !creationFalsy fe.creation := by
  induction index_data with
  | nil => rfl
  | cons g rest ih =>
    simp only [dropFalsy, List.map_cons, List.flatMap_cons,
      List.filter_append] at *
    rw [ih]

/-- C10: fragment entries whose `creation` is null or empty are silently
excluded — processing an Index is the same as processing the Index with
those entries deleted, so all other entries are still processed — and
every extracted record stems from an entry with a defined non-empty
creation string. -/
theorem process_all_fragments_skips_falsy (parseIso : String → ℚ)
    (fmtName : ℚ → String) (chooseName : List String → String → String)
    (sourceExists : String → Bool)
    (extractOk : String → ℚ → ℚ → String → Bool)
    (index_data : List PGroup) (existing0 : List String) :
    process_all_fragments parseIso fmtName chooseName sourceExists
        extractOk (dropFalsy index_data) existing0 =
      process_all_fragments parseIso fmtName chooseName sourceExists
        extractOk index_data existing0 ∧
    ∀ r ∈ process_all_fragments parseIso fmtName chooseName sourceExists
        extractOk index_data existing0,
      ∃ fe ∈ index_data.flatMap fun g => g.file_fragments,
        ∃ c, fe.creation = some c ∧ c ≠ "" ∧
          r.fragment_datetime = parseIso c + fe.start ∧
          r.start = fe.start ∧ r.stop = fe.stop ∧
          r.source = fe.filename := by
  constructor
  · rw [process_all_fragments, process_all_fragments, dropFalsy_flatMap,
      processLoop_filter]
  · intro r hr
    exact processLoop_mem_spec parseIso fmtName chooseName sourceExists
      extractOk _ existing0 r hr

/-- One playlist entry as written by `create_m3u_playlist`
(`create_playlist.py` lines 155-161): the `#EXTINF` millisecond duration,
the human-readable label, and the fragment filename line. -/
structure M3UEntry where
  durationMs : ℤ
  label : String
  filename : String

/-- The `#EXTINF` label text (`create_playlist.py` line 160):
formatted fragment datetime plus the source filename; `fmtLabel`
abstracts `strftime`. -/
def mkLabel (fmtLabel : ℚ → String) (frag : Extracted) : String :=
  fmtLabel frag.fragment_datetime ++ " (from " ++ frag.source ++ ")"

/-- `create_m3u_playlist` (`create_playlist.py` lines 147-165): sort the
extracted fragments by fragment datetime (Python `sorted` is stable; a
stable structural sort models it) and emit one entry each, with
`duration_ms = int((end - start) * 1000)`. -/
def create_m3u_playlist (fmtLabel : ℚ → String)
    (fragments : List Extracted) : List M3UEntry :=
  let fragments_sorted := List.insertionSort
    (fun a b => a.fragment_datetime ≤ b.fragment_datetime) fragments
  fragments_sorted.map fun frag =>
    ⟨pyInt ((frag.stop - frag.start) * 1000), mkLabel fmtLabel frag,
      frag.filename⟩

instance : IsTotal Extracted fun a b =>
    a.fragment_datetime ≤ b.fragment_datetime :=
  ⟨fun _ _ => le_total _ _⟩

instance : IsTrans Extracted fun a b =>
    a.fragment_datetime ≤ b.fragment_datetime :=
  ⟨fun _ _ _ => le_trans⟩

/-- C9: the playlist built from the extracted fragments of an Index lists
its entries in ascending order of each fragment's absolute real-world
timestamp — the source file's creation time plus the fragment's start
offset — and each entry carries the millisecond duration
`int((end - start) * 1000)` and the human-readable label. -/
theorem create_m3u_playlist_sorted (parseIso : String → ℚ)
    (fmtName : ℚ → String) (chooseName : List String → String → String)
    (sourceExists : String → Bool)
    (extractOk : String → ℚ → ℚ → String → Bool) (fmtLabel : ℚ → String)
    (index_data : List PGroup) (existing0 : List String) :
    ∃ rs : List Extracted,
      rs.Perm (process_all_fragments parseIso fmtName chooseName
        sourceExists extractOk index_data existing0) ∧
      List.Pairwise
        (fun a b => a.fragment_datetime ≤ b.fragment_datetime) rs ∧
      create_m3u_playlist fmtLabel (process_all_fragments parseIso fmtName
          chooseName sourceExists extractOk index_data existing0) =
        rs.map (fun frag =>
          ⟨pyInt ((frag.stop - frag.start) * 1000), mkLabel fmtLabel frag,
            frag.filename⟩) ∧
      ∀ frag ∈ rs, ∃ fe ∈ index_data.flatMap fun g => g.file_fragments,
        ∃ c, fe.creation = some c ∧ c ≠ "" ∧
          frag.fragment_datetime = parseIso c + fe.start ∧
          frag.start = fe.start ∧ frag.stop = fe.stop ∧
          frag.source = fe.filename := by
  refine ⟨List.insertionSort
      (fun a b => a.fragment_datetime ≤ b.fragment_datetime)
      (process_all_fragments parseIso fmtName chooseName sourceExists
        extractOk index_data existing0),
    List.perm_insertionSort _ _, List.sorted_insertionSort _ _, rfl, ?_⟩
  intro frag hfrag
  have hmem : frag ∈ process_all_fragments parseIso fmtName chooseName
      sourceExists extractOk index_data existing0 :=
    (List.perm_insertionSort _ _).mem_iff.mp hfrag
  exact processLoop_mem_spec parseIso fmtName chooseName sourceExists
    extractOk _ existing0 frag hmem

end Goproflow
